import Mathlib

/-!
Verification of the phase-only GN/LM calibration solver in
`src/current_code/solver-multichunk.py`.

Modelling conventions.

* Complex numbers are modelled exactly by `CC`, pairs of rationals with the
  Gaussian multiplication; the python code's floating-point arithmetic is
  read as exact arithmetic (the spec's "exact in exact arithmetic").
* Arrays are total functions over `Fin` index types.  In the script the
  visibility arrays have shape `[t, f, p, q, 2, 2]` (two leading batch axes,
  then the two antenna axes, then the 2x2 correlation matrix) and every
  operation of the solver acts pointwise in the batch axes `t, f`; the
  embedding therefore works with one batch cell, that is with arrays indexed
  `[p, q, 2, 2]` (`VisArr`), `[a, 2, 2]` (`GainArr`, `JhjArr`) and `[a, 2]`
  (`PhaseArr`, the `[a, 2, 1]` phase array with the trivial trailing axis
  dropped).
* `np.exp(-1j*phases)` and `np.linalg.norm` are transcendental library
  functions (values outside ℚ); the solver model takes them as explicit
  function parameters `cis` (for `phi ↦ exp(-i*phi)`) and `normArrG` /
  `normArrV` (for the Frobenius norm on gain-shaped and on visibility-shaped
  arrays).  Every control-flow theorem below is proved for all values of
  these parameters; concrete evaluations instantiate them with computable
  stand-ins at inputs where the stand-in agrees with the real function
  (for example at all-zero arrays, where the norm is exactly 0 and
  `exp(-i*0) = 1`).
* The python loop `while delta_g > min_delta_g:` is modelled by the
  structurally recursive `loopGo` with fuel `maxiter + 2`; the fuel is
  provably sufficient (the loop itself returns once `iters > maxiter`), so
  the `fuelOut` branch is unreachable, which `loopGo_iters_le` below makes
  precise.
* `chi` starts at `np.inf`; the type `ChiV` has the extra value `ChiV.inf`
  for it.  For a finite `c`, `inf - c = inf` is not `< chi_tol` and
  `inf < c` is false, so both comparisons of the chi-squared block fall
  through; `chiCheck` encodes this as the `none` case.
* `iters % chi_interval` is ℕ-modulo.  (Python raises `ZeroDivisionError`
  for `chi_interval = 0`; no claim involves that value, and the defaults use
  `chi_interval = 5`.)
-/

/-- Exact complex numbers: pairs of rationals (the script's complex floats,
read exactly). -/
@[ext] structure CC where
  re : ℚ
  im : ℚ
deriving DecidableEq

def CC.add (a b : CC) : CC := ⟨a.re + b.re, a.im + b.im⟩

def CC.mul (a b : CC) : CC := ⟨a.re * b.re - a.im * b.im, a.re * b.im + a.im * b.re⟩

def CC.neg (a : CC) : CC := ⟨-a.re, -a.im⟩

instance : Zero CC := ⟨⟨0, 0⟩⟩

instance : One CC := ⟨⟨1, 0⟩⟩

instance : Add CC := ⟨CC.add⟩

instance : Mul CC := ⟨CC.mul⟩

instance : Neg CC := ⟨CC.neg⟩

instance : CommRing CC where
  add_assoc a b c := by
    show CC.add (CC.add a b) c = CC.add a (CC.add b c)
    apply CC.ext <;> simp [CC.add] <;> ring
  zero_add a := by
    show CC.add ⟨0, 0⟩ a = a
    apply CC.ext <;> simp [CC.add]
  add_zero a := by
    show CC.add a ⟨0, 0⟩ = a
    apply CC.ext <;> simp [CC.add]
  add_comm a b := by
    show CC.add a b = CC.add b a
    apply CC.ext <;> simp [CC.add] <;> ring
  mul_assoc a b c := by
    show CC.mul (CC.mul a b) c = CC.mul a (CC.mul b c)
    apply CC.ext <;> simp [CC.mul] <;> ring
  one_mul a := by
    show CC.mul ⟨1, 0⟩ a = a
    apply CC.ext <;> simp [CC.mul]
  mul_one a := by
    show CC.mul a ⟨1, 0⟩ = a
    apply CC.ext <;> simp [CC.mul]
  left_distrib a b c := by
    show CC.mul a (CC.add b c) = CC.add (CC.mul a b) (CC.mul a c)
    apply CC.ext <;> simp [CC.mul, CC.add] <;> ring
  right_distrib a b c := by
    show CC.mul (CC.add a b) c = CC.add (CC.mul a c) (CC.mul b c)
    apply CC.ext <;> simp [CC.mul, CC.add] <;> ring
  mul_comm a b := by
    show CC.mul a b = CC.mul b a
    apply CC.ext <;> simp [CC.mul] <;> ring
  zero_mul a := by
    show CC.mul ⟨0, 0⟩ a = ⟨0, 0⟩
    apply CC.ext <;> simp [CC.mul]
  mul_zero a := by
    show CC.mul a ⟨0, 0⟩ = ⟨0, 0⟩
    apply CC.ext <;> simp [CC.mul]
  neg_add_cancel a := by
    show CC.add (CC.neg a) a = ⟨0, 0⟩
    apply CC.ext <;> simp [CC.add, CC.neg]
  nsmul := nsmulRec
  zsmul := zsmulRec

/-- Complex conjugate (`np.conj`). -/
def CC.conj (z : CC) : CC := ⟨z.re, -z.im⟩

/-- Squared magnitude `abs(z)**2 = re^2 + im^2` (exact). -/
def CC.normSq (z : CC) : ℚ := z.re ^ 2 + z.im ^ 2

/-- Exact reciprocal of a complex number (`1./z` in python, for `z ≠ 0`);
total with junk value `0` at `z = 0`. -/
def CC.cinv (z : CC) : CC := ⟨z.re / z.normSq, -z.im / z.normSq⟩

/-- Observed / model visibility arrays: one batch cell of the script's
`[t, f, p, q, 2, 2]` arrays. -/
abbrev VisArr (na : ℕ) := Fin na → Fin na → Fin 2 → Fin 2 → CC

/-- Per-antenna gain arrays: one batch cell of shape `[a, 2, 2]`. -/
abbrev GainArr (na : ℕ) := Fin na → Fin 2 → Fin 2 → CC

/-- Phase state: one batch cell of the `[a, 2, 1]` phase array. -/
abbrev PhaseArr (na : ℕ) := Fin na → Fin 2 → ℚ

/-- The real-valued `(J^H J)^-1` blocks, shape `[a, 2, 2]`. -/
abbrev JhjArr (na : ℕ) := Fin na → Fin 2 → Fin 2 → ℚ

/-!
Jacobian kernel (`compute_jhr`, lines 5-37 of the script).

With arrays `[t, f, p, q, 2, 2]` the einsum
`rg = einsum("gh...ij,gh...jk->gh...ik", obser_arr, gains)` has `g = t`,
`h = f`; the ellipsis of `obser_arr` covers the two antenna axes `p, q`
while the ellipsis of `gains` covers only `a`, so numpy broadcasting aligns
the gain's antenna axis with `q`, the second antenna axis of the data:
`rg[p,q] = obser[p,q] · gains[q]`.
-/

/-- The einsum `rg[p,q] = obser[p,q] · gains[q]` (line 25). -/
def rgArr (obser : VisArr na) (gains : GainArr na) : VisArr na :=
  fun p q i k => ∑ j, obser p q i j * gains q j k

/-- The einsum `rgmh = einsum("...ij,...kj->...ik", rg, model_arr.conj())`
(line 27): `rg[p,q] · (model[p,q])^H`. -/
def rgmhArr (obser model : VisArr na) (gains : GainArr na) : VisArr na :=
  fun p q i k => ∑ j, rgArr obser gains p q i j * CC.conj (model p q k j)

/-- The reduction `rgmh = np.sum(rgmh, axis=-3)` (line 29): sum over the
second antenna axis `q`, one 2x2 block per antenna `p`. -/
def rgmhSum (obser model : VisArr na) (gains : GainArr na)
    (p : Fin na) (i k : Fin 2) : CC :=
  ∑ q, rgmhArr obser model gains p q i k

/-- The term `(J^H)R` (lines 19-37): multiplying `gains.conj()` by the fixed
2x4 projection `spec_eye` (ones at `(0,0)` and `(1,3)`) and contracting with
the flattened summed `rgmh` (`[4, 1]` per antenna: flat slots `0` and `3`
are the diagonal entries of the 2x2 block) gives per antenna `p` and slot
`i` the value `conj(g[p,i,0])*S[0,0] + conj(g[p,i,1])*S[1,1]`; then
`jhr = -2 * (...).imag`. -/
def compute_jhr (obser model : VisArr na) (gains : GainArr na) : PhaseArr na :=
  fun p i =>
    -2 * (CC.conj (gains p i 0) * rgmhSum obser model gains p 0 0
        + CC.conj (gains p i 1) * rgmhSum obser model gains p 1 1).im

/-- The fixed 4x4 integer normalization matrix `to_norm` of `compute_jhjinv`
(lines 56-57): `[[2,0,0,0],[1,0,0,1],[1,0,0,1],[0,0,0,2]]`. -/
def to_norm (k j : Fin 4) : ℚ :=
  if j = 0 then (if k = 0 then 2 else if k = 3 then 0 else 1)
  else if j = 3 then (if k = 0 then 0 else if k = 3 then 2 else 1)
  else 0

/-- Row-major flattening of the trailing `[2, 2]` axes into `[4]`
(`model_arr.reshape(new_shape)` with `new_shape[-2:] = [4]`). -/
def flatIx (i j : Fin 2) : Fin 4 :=
  ⟨2 * i.val + j.val, by have := i.isLt; have := j.isLt; omega⟩

/-- The summed squared magnitudes
`np.sum(abs(model_arr.reshape(new_shape))**2, axis=-2)` (line 59): the sum
over the second antenna axis `q` of `|model[p,q]|^2`, flattened to `[4]`
per antenna `p`. -/
def jhjAbsSum (model : VisArr na) (p : Fin na) (k : Fin 4) : ℚ :=
  ∑ q, CC.normSq (model p q ⟨k.val / 2, by have := k.isLt; omega⟩
                            ⟨k.val % 2, by omega⟩)

/-- The matrix product `.dot(to_norm)` of line 59: the pre-inversion
normalization values. -/
def jhjDot (model : VisArr na) (p : Fin na) (j : Fin 4) : ℚ :=
  ∑ k, jhjAbsSum model p k * to_norm k j

/-- `compute_jhjinv` (lines 40-65): element-wise inversion
`jhjinv[jhjinv != 0] = 1./jhjinv[jhjinv != 0]` (non-zero entries become
reciprocals, exact zeros are left in place), reshaped to 2x2 blocks. -/
def compute_jhjinv (model : VisArr na) : JhjArr na :=
  fun p i j =>
    let d := jhjDot model p (flatIx i j)
    if d ≠ 0 then 1 / d else d

/-- `compute_update` (lines 68-88): the contraction
`einsum("...ij,...jk->...ik", jhjinv, jhr)`, a 2x2-by-2x1 product per
antenna. -/
def compute_update (model obser : VisArr na) (gains : GainArr na)
    (jhjinv : JhjArr na) : PhaseArr na :=
  fun p i => ∑ j, jhjinv p i j * compute_jhr obser model gains p j

/-- The einsum `gm = einsum("...lij,...lmjk->...lmik", gains, model_arr)`
(line 105): `gm[l,m] = G_l · M[l,m]`. -/
def gmArr (gains : GainArr na) (model : VisArr na) : VisArr na :=
  fun l m i k => ∑ j, gains l i j * model l m j k

/-- The einsum `gmgh = einsum("...lmij,...mkj->...lmik", gm, gains.conj())`
(line 107): `gmgh[l,m] = G_l · M[l,m] · (G_m)^H`, the model with the current
gains applied. -/
def gmghArr (gains : GainArr na) (model : VisArr na) : VisArr na :=
  fun l m i k => ∑ j, gmArr gains model l m i j * CC.conj (gains m k j)

/-- `compute_residual` (lines 91-111): `D - G·M·G^H`. -/
def compute_residual (obser model : VisArr na) (gains : GainArr na) : VisArr na :=
  fun l m i k => obser l m i k - gmghArr gains model l m i k

/-- The relaxation factor of the loop body (lines 148-151):
`0.5` when `iters % 2 == 0`, else `1`. -/
def relaxFact (iters : ℕ) : ℚ :=
  if iters % 2 = 0 then 1 / 2 else 1

/-- The value of the `chi` variable: `np.inf` (its initial value, line 142)
or a finite norm value. -/
inductive ChiV where
  | inf : ChiV
  | fin : ℚ → ChiV
deriving DecidableEq

/-- The chi-squared block of the loop (lines 165-172) after `old_chi = chi`
and the recomputation of `chi`:
`some false` — the branch `(old_chi - chi) < chi_tol` returns the gains
(no diagnostic); `some true` — the branch `old_chi < chi` prints
"Bad solutions." and returns the gains; `none` — fall through (this is
always the case while `old_chi` is `np.inf`, since `inf - chi = inf` is not
below `chi_tol` and `inf < chi` is false). -/
def chiCheck (old_chi : ChiV) (chi chi_tol : ℚ) : Option Bool :=
  match old_chi with
  | .inf => none
  | .fin o => if o - chi < chi_tol then some false
              else if o < chi then some true
              else none

/-- Which statement of `full_pol_phase_only` produced the returned gains.
The python function itself returns only the bare `gains` array in every
case; this tag instruments the model so that the exit taken (and whether
the "Bad solutions." diagnostic was printed, exactly the `diverged` case)
is visible to the theorems.  `fuelOut` is the artificial out-of-fuel case
of the embedding, proved unreachable. -/
inductive ExitPath where
  | deltaGConverged : ExitPath
  | maxiterReached : ExitPath
  | chiConverged : ExitPath
  | diverged : ExitPath
  | fuelOut : ExitPath
deriving DecidableEq

/-- The mutable state of the solver loop (lines 135-142). -/
structure SolverState (na : ℕ) where
  phases : PhaseArr na
  gains : GainArr na
  delta_g : ℚ
  iters : ℕ
  chi : ChiV

/-- Inputs and configuration of `full_pol_phase_only` (line 114), plus the
two transcendental library functions it uses, kept abstract: `cis` models
`phi ↦ exp(-i*phi)` and `normArrG` / `normArrV` model `np.linalg.norm` on
gain-shaped and visibility-shaped arrays. -/
structure SolverParams (na : ℕ) where
  model : VisArr na
  obser : VisArr na
  min_delta_g : ℚ
  maxiter : ℕ
  chi_tol : ℚ
  chi_interval : ℕ
  cis : ℚ → CC
  normArrG : GainArr na → ℚ
  normArrV : VisArr na → ℚ

/-- The result of a solve, instrumented: the returned gains (the python
function's sole return value), the exit taken, and the final value of the
iteration counter. -/
structure SolverResult (na : ℕ) where
  gains : GainArr na
  path : ExitPath
  iters : ℕ

/-- The gains einsum of lines 137 and 157:
`np.einsum("...ij,...jk", np.exp(-1j*phases), np.ones([1, 2]))` puts
`cis(phases[p,i])` in both columns of row `i`. -/
def gainsRaw (cis : ℚ → CC) (phases : PhaseArr na) : GainArr na :=
  fun p i _k => cis (phases p i)

/-- Lines 137-138 and 157-158: the gains from the accumulated phases, with
the off-diagonal entries forced to exactly zero by
`gains[..., (0, 1), (1, 0)] = 0`. -/
def gainsOf (cis : ℚ → CC) (phases : PhaseArr na) : GainArr na :=
  fun p i j => if i = j then gainsRaw cis phases p i j else 0

/-- One execution of the `while delta_g > min_delta_g:` loop of
`full_pol_phase_only` (lines 146-176), structurally recursive on fuel.
The order of the statements mirrors the source: relaxation factor, phase
update, gain snapshot, gain recomputation, `iters += 1`, the
`iters > maxiter` return, the chi-squared block, and finally the `delta_g`
recomputation `np.linalg.norm(delta_g - gains)`. -/
def loopGo (P : SolverParams na) (jhjinv : JhjArr na) :
    ℕ → SolverState na → SolverResult na
  | 0, st => ⟨st.gains, .fuelOut, st.iters⟩
  | fuel + 1, st =>
    if st.delta_g > P.min_delta_g then
      let fact := relaxFact st.iters
      let upd := compute_update P.model P.obser st.gains jhjinv
      let phases' : PhaseArr na := fun p i => st.phases p i + fact * upd p i
      let old_gains := st.gains
      let gains' := gainsOf P.cis phases'
      let iters' := st.iters + 1
      if iters' > P.maxiter then ⟨gains', .maxiterReached, iters'⟩
      else if iters' % P.chi_interval = 0 then
        let chiNew := P.normArrV (compute_residual P.obser P.model gains')
        match chiCheck st.chi chiNew P.chi_tol with
        | some true => ⟨gains', .diverged, iters'⟩
        | some false => ⟨gains', .chiConverged, iters'⟩
        | none =>
          let delta_g' := P.normArrG (fun p i j => old_gains p i j - gains' p i j)
          loopGo P jhjinv fuel ⟨phases', gains', delta_g', iters', .fin chiNew⟩
      else
        let delta_g' := P.normArrG (fun p i j => old_gains p i j - gains' p i j)
        loopGo P jhjinv fuel ⟨phases', gains', delta_g', iters', st.chi⟩
    else ⟨st.gains, .deltaGConverged, st.iters⟩

/-- The initial state of `full_pol_phase_only` (lines 132-142): zero phases,
the corresponding diagonal gains, `delta_g = 1`, `iters = 0`,
`chi = np.inf`. -/
def initState (P : SolverParams na) : SolverState na :=
  ⟨fun _ _ => 0, gainsOf P.cis (fun _ _ => 0), 1, 0, .inf⟩

/-- The instrumented run of `full_pol_phase_only` (lines 114-176):
`jhjinv` is computed once (line 144), then the loop runs.  The fuel
`maxiter + 2` is provably sufficient. -/
def solverRun (P : SolverParams na) : SolverResult na :=
  loopGo P (compute_jhjinv P.model) (P.maxiter + 2) (initState P)

/-- `full_pol_phase_only`'s actual return value: the bare gains array —
every `return gains` statement of the source returns exactly this, with no
status attached. -/
def full_pol_phase_only (P : SolverParams na) : GainArr na :=
  (solverRun P).gains

/-- The `[::-1, ::-1]` index reversal of line 191. -/
def rev2 (i : Fin 2) : Fin 2 := ⟨1 - i.val, by omega⟩

/-- Line 191: `np.transpose(gains[..., ::-1, ::-1], axes=[0, 1, 2, 4, 3])` —
reverse both matrix axes, then swap them. -/
def invGainsRaw (gains : GainArr na) : GainArr na :=
  fun p i j => gains p (rev2 j) (rev2 i)

/-- The cofactor sign matrix `np.array([[1, -1], [-1, 1]])` of line 193. -/
def signM (i j : Fin 2) : CC := if i = j then 1 else -1

/-- The per-antenna determinant
`gains[..., 0, 0] * gains[..., 1, 1] - gains[..., 0, 1] * gains[..., 1, 0]`
of lines 195-196. -/
def detOf (gains : GainArr na) (p : Fin na) : CC :=
  gains p 0 0 * gains p 1 1 - gains p 0 1 * gains p 1 0

/-- Lines 191-196: the explicit closed-form 2x2 inverse of each antenna's
gain matrix (adjugate divided by the determinant). -/
def inv_gains (gains : GainArr na) : GainArr na :=
  fun p i j => signM i j * invGainsRaw gains p i j * CC.cinv (detOf gains p)

/-- `apply_gains` (lines 179-202): corrected visibilities
`G^-1 · D · G^-H` per antenna pair, via the einsums of lines 198-200. -/
def apply_gains (obser : VisArr na) (gains : GainArr na) : VisArr na :=
  fun l m i k =>
    ∑ j, (∑ j', inv_gains gains l i j' * obser l m j' j)
         * CC.conj (inv_gains gains m k j)

/-- All-zero visibility array (the "all-zero model array" of the spec). -/
def zeroVis (na : ℕ) : VisArr na := fun _ _ _ _ => 0

/-- Computable stand-in for `cis` in concrete runs; agrees with
`exp(-i*phi)` at `phi = 0`, the only phase reached in those runs. -/
def cisOne : ℚ → CC := fun _ => 1

/-- Squared Frobenius norm on gain-shaped arrays: computable stand-in for
`np.linalg.norm` in concrete runs; agrees with it at all-zero arrays (both
are `0`), the only arrays it is applied to in those runs. -/
def frobSqG (na : ℕ) : GainArr na → ℚ :=
  fun arr => ∑ p, ∑ i, ∑ j, CC.normSq (arr p i j)

/-- Squared Frobenius norm on visibility-shaped arrays: computable stand-in
for `np.linalg.norm`, as `frobSqG`. -/
def frobSqV (na : ℕ) : VisArr na → ℚ :=
  fun arr => ∑ p, ∑ q, ∑ i, ∑ j, CC.normSq (arr p q i j)

/-- A concrete 2-antenna configuration: all-zero observed and model arrays,
default `chi_tol = 1e-6` and `chi_interval = 5`, with `min_delta_g` and
`maxiter` chosen per scenario. -/
def exampleParams (min_delta_g : ℚ) (maxiter : ℕ) : SolverParams 2 :=
  ⟨zeroVis 2, zeroVis 2, min_delta_g, maxiter, 1 / 1000000, 5,
   cisOne, frobSqG 2, frobSqV 2⟩

/-- All-one visibility array (a concrete model with flux on every
baseline). -/
def oneVis (na : ℕ) : VisArr na := fun _ _ _ _ => 1

/-- Identity per-antenna gains (unit diagonal). -/
def idGain (na : ℕ) : GainArr na := fun _ i j => if i = j then 1 else 0

/-- A concrete non-trivial visibility array used in witnesses. -/
def sampleVis (na : ℕ) : VisArr na :=
  fun _ _ i j => ⟨(i.val : ℚ) + 2 * (j.val : ℚ), 1⟩

/-- The state after one full pass of the loop body that neither returned
nor performed the chi-squared update: phases incremented by the relaxed
update, gains recomputed, `delta_g = norm(old_gains - new_gains)`, the
iteration counter incremented, and `chi` set to `newChi` (the old value
when no chi-squared check ran, the recomputed norm when one ran and fell
through). -/
def stepState {na : ℕ} (P : SolverParams na) (jhjinv : JhjArr na)
    (st : SolverState na) (newChi : ChiV) : SolverState na :=
  let phases' : PhaseArr na := fun p i =>
    st.phases p i + relaxFact st.iters * compute_update P.model P.obser st.gains jhjinv p i
  let gains' := gainsOf P.cis phases'
  ⟨phases', gains',
   P.normArrG (fun p i j => st.gains p i j - gains' p i j),
   st.iters + 1, newChi⟩

/-!
Theorems.  First the elementary algebra of `CC`, then the loop invariants,
then the claim theorems.
-/

@[simp] theorem CC.zero_re : (0 : CC).re = 0 := rfl

@[simp] theorem CC.zero_im : (0 : CC).im = 0 := rfl

@[simp] theorem CC.one_re : (1 : CC).re = 1 := rfl

@[simp] theorem CC.one_im : (1 : CC).im = 0 := rfl

@[simp] theorem CC.add_re (a b : CC) : (a + b).re = a.re + b.re := rfl

@[simp] theorem CC.add_im (a b : CC) : (a + b).im = a.im + b.im := rfl

@[simp] theorem CC.mul_re (a b : CC) : (a * b).re = a.re * b.re - a.im * b.im := rfl

@[simp] theorem CC.mul_im (a b : CC) : (a * b).im = a.re * b.im + a.im * b.re := rfl

@[simp] theorem CC.neg_re (a : CC) : (-a).re = -a.re := rfl

@[simp] theorem CC.neg_im (a : CC) : (-a).im = -a.im := rfl

@[simp] theorem CC.sub_re (a b : CC) : (a - b).re = a.re - b.re := by
  show (CC.add a (CC.neg b)).re = _
  simp [CC.add, CC.neg]
  ring

@[simp] theorem CC.sub_im (a b : CC) : (a - b).im = a.im - b.im := by
  show (CC.add a (CC.neg b)).im = _
  simp [CC.add, CC.neg]
  ring

@[simp] theorem CC.conj_re (a : CC) : a.conj.re = a.re := rfl

@[simp] theorem CC.conj_im (a : CC) : a.conj.im = -a.im := rfl

theorem CC.conj_mul (a b : CC) : (a * b).conj = a.conj * b.conj := by
  apply CC.ext <;> (simp [CC.conj]; try ring)

@[simp] theorem CC.conj_one : (1 : CC).conj = 1 := by
  apply CC.ext <;> simp [CC.conj]

@[simp] theorem CC.conj_zero : (0 : CC).conj = 0 := by
  apply CC.ext <;> simp [CC.conj]

@[simp] theorem CC.normSq_zero : CC.normSq 0 = 0 := by
  simp [CC.normSq]

theorem CC.one_ne_zero : (1 : CC) ≠ 0 := by
  intro h
  have h1 := congrArg CC.re h
  simp at h1

theorem CC.normSq_eq_zero {z : CC} : z.normSq = 0 ↔ z = 0 := by
  constructor
  · intro h
    have hs : z.re ^ 2 + z.im ^ 2 = 0 := h
    have h1 : z.re ^ 2 = 0 := by nlinarith [sq_nonneg z.re, sq_nonneg z.im]
    have h2 : z.im ^ 2 = 0 := by nlinarith [sq_nonneg z.re, sq_nonneg z.im]
    apply CC.ext
    · exact pow_eq_zero_iff (two_ne_zero) |>.mp h1
    · exact pow_eq_zero_iff (two_ne_zero) |>.mp h2
  · intro h
    subst h
    simp

theorem CC.mul_cinv {z : CC} (hz : z ≠ 0) : z * z.cinv = 1 := by
  have hn : z.normSq ≠ 0 := fun h => hz (CC.normSq_eq_zero.mp h)
  apply CC.ext
  · show z.re * (z.re / z.normSq) - z.im * (-z.im / z.normSq) = 1
    field_simp
    simp [CC.normSq] at hn ⊢
    ring
  · show z.re * (-z.im / z.normSq) + z.im * (z.re / z.normSq) = 0
    field_simp
    ring

theorem gainsOf_offdiag {na : ℕ} (cis : ℚ → CC) (phases : PhaseArr na)
    (p : Fin na) {i j : Fin 2} (hij : i ≠ j) : gainsOf cis phases p i j = 0 :=
  if_neg hij

theorem loopGo_iters_mono {na : ℕ} (P : SolverParams na) (jhjinv : JhjArr na) :
    ∀ (fuel : ℕ) (st : SolverState na), st.iters ≤ (loopGo P jhjinv fuel st).iters := by
  intro fuel
  induction fuel with
  | zero => intro st; exact le_refl _
  | succ fuel ih =>
    intro st
    simp only [loopGo]
    split
    · split
      · exact Nat.le_succ _
      · split
        · split
          · exact Nat.le_succ _
          · exact Nat.le_succ _
          · refine le_trans ?_ (ih _)
            exact Nat.le_succ _
        · refine le_trans ?_ (ih _)
          exact Nat.le_succ _
    · exact le_refl _

theorem loopGo_iters_le {na : ℕ} (P : SolverParams na) (jhjinv : JhjArr na) :
    ∀ (fuel : ℕ) (st : SolverState na), st.iters ≤ P.maxiter →
      (loopGo P jhjinv fuel st).iters ≤ P.maxiter + 1 := by
  intro fuel
  induction fuel with
  | zero =>
    intro st h
    show st.iters ≤ P.maxiter + 1
    omega
  | succ fuel ih =>
    intro st h
    simp only [loopGo]
    split
    · split
      next hmax =>
        show st.iters + 1 ≤ P.maxiter + 1
        omega
      next hmax =>
        split
        · split
          · show st.iters + 1 ≤ P.maxiter + 1
            omega
          · show st.iters + 1 ≤ P.maxiter + 1
            omega
          · exact ih _ (show st.iters + 1 ≤ P.maxiter by omega)
        · exact ih _ (show st.iters + 1 ≤ P.maxiter by omega)
    · show st.iters ≤ P.maxiter + 1
      omega

theorem chiCheck_ne_some_true {oc : ChiV} {c tol : ℚ} (htol : 0 < tol) :
    chiCheck oc c tol ≠ some true := by
  cases oc with
  | inf => simp [chiCheck]
  | fin o =>
    simp only [chiCheck]
    split_ifs with h1 h2
    · simp
    · exfalso
      linarith
    · simp

theorem loopGo_ne_diverged {na : ℕ} (P : SolverParams na) (jhjinv : JhjArr na)
    (htol : 0 < P.chi_tol) :
    ∀ (fuel : ℕ) (st : SolverState na), (loopGo P jhjinv fuel st).path ≠ .diverged := by
  intro fuel
  induction fuel with
  | zero => intro st; simp [loopGo]
  | succ fuel ih =>
    intro st
    simp only [loopGo]
    split
    · split
      · simp
      · split
        · split
          next heq => exact absurd heq (chiCheck_ne_some_true htol)
          next => simp
          next => exact ih _
        · exact ih _
    · simp

theorem loopGo_gains_diag {na : ℕ} (P : SolverParams na) (jhjinv : JhjArr na) :
    ∀ (fuel : ℕ) (st : SolverState na),
      (∀ (p : Fin na) (i j : Fin 2), i ≠ j → st.gains p i j = 0) →
      ∀ (p : Fin na) (i j : Fin 2), i ≠ j → (loopGo P jhjinv fuel st).gains p i j = 0 := by
  intro fuel
  induction fuel with
  | zero => intro st hst p i j hij; exact hst p i j hij
  | succ fuel ih =>
    intro st hst p i j hij
    simp only [loopGo]
    split
    · split
      · exact gainsOf_offdiag _ _ _ hij
      · split
        · split
          · exact gainsOf_offdiag _ _ _ hij
          · exact gainsOf_offdiag _ _ _ hij
          · exact ih _ (fun p i j hij => gainsOf_offdiag _ _ _ hij) p i j hij
        · exact ih _ (fun p i j hij => gainsOf_offdiag _ _ _ hij) p i j hij
    · exact hst p i j hij

theorem compute_update_zero_obser {na : ℕ} (model : VisArr na) (g : GainArr na)
    (jhj : JhjArr na) (p : Fin na) (i : Fin 2) :
    compute_update model (zeroVis na) g jhj p i = 0 := by
  simp [compute_update, compute_jhr, rgmhSum, rgmhArr, rgArr, zeroVis]

theorem gainsOf_cisOne {na : ℕ} (phases : PhaseArr na) :
    gainsOf cisOne phases = idGain na := by
  funext p i j
  simp [gainsOf, gainsRaw, cisOne, idGain]

theorem loopGo_exit {na : ℕ} (P : SolverParams na) (jhjinv : JhjArr na)
    (fuel : ℕ) (st : SolverState na) (h : ¬(st.delta_g > P.min_delta_g)) :
    loopGo P jhjinv (fuel + 1) st = ⟨st.gains, .deltaGConverged, st.iters⟩ := by
  simp only [loopGo]
  rw [if_neg h]

theorem loopGo_maxiter {na : ℕ} (P : SolverParams na) (jhjinv : JhjArr na)
    (fuel : ℕ) (st : SolverState na) (h1 : st.delta_g > P.min_delta_g)
    (h2 : st.iters + 1 > P.maxiter) :
    loopGo P jhjinv (fuel + 1) st
      = ⟨(stepState P jhjinv st st.chi).gains, .maxiterReached, st.iters + 1⟩ := by
  simp only [loopGo, stepState]
  rw [if_pos h1, if_pos h2]

theorem loopGo_cont {na : ℕ} (P : SolverParams na) (jhjinv : JhjArr na)
    (fuel : ℕ) (st : SolverState na) (h1 : st.delta_g > P.min_delta_g)
    (h2 : ¬(st.iters + 1 > P.maxiter)) (h3 : ¬((st.iters + 1) % P.chi_interval = 0)) :
    loopGo P jhjinv (fuel + 1) st = loopGo P jhjinv fuel (stepState P jhjinv st st.chi) := by
  simp only [loopGo, stepState]
  rw [if_pos h1, if_neg h2, if_neg h3]

theorem run_maxiter0 :
    solverRun (exampleParams (1/1000) 0) = ⟨idGain 2, .maxiterReached, 1⟩ := by
  refine .trans (show solverRun (exampleParams (1/1000) 0)
      = loopGo (exampleParams (1/1000) 0) (compute_jhjinv (zeroVis 2)) (1 + 1)
          (initState (exampleParams (1/1000) 0)) from rfl) ?_
  rw [loopGo_maxiter _ _ _ _ (show ((1:ℚ)/1000) < 1 by norm_num) (show 0 < 0 + 1 by omega)]
  have hg : (stepState (exampleParams (1/1000) 0) (compute_jhjinv (zeroVis 2))
      (initState (exampleParams (1/1000) 0))
      (initState (exampleParams (1/1000) 0)).chi).gains = idGain 2 := by
    simp only [stepState, exampleParams]
    exact gainsOf_cisOne _
  rw [hg]
  rfl

theorem run_deltag30 :
    solverRun (exampleParams (1/1000) 30) = ⟨idGain 2, .deltaGConverged, 1⟩ := by
  refine .trans (show solverRun (exampleParams (1/1000) 30)
      = loopGo (exampleParams (1/1000) 30) (compute_jhjinv (zeroVis 2)) (31 + 1)
          (initState (exampleParams (1/1000) 30)) from rfl) ?_
  rw [loopGo_cont _ _ _ _ (show ((1:ℚ)/1000) < 1 by norm_num)
      (show ¬(30 < 0 + 1) by omega) (show ¬((0 + 1) % 5 = 0) by norm_num)]
  have hδ : (stepState (exampleParams (1/1000) 30) (compute_jhjinv (zeroVis 2))
      (initState (exampleParams (1/1000) 30))
      (initState (exampleParams (1/1000) 30)).chi).delta_g = 0 := by
    simp only [stepState, exampleParams, initState, gainsOf_cisOne]
    simp [frobSqG]
  rw [loopGo_exit _ _ _ _ (by rw [hδ]; exact (show ¬((1:ℚ)/1000 < 0) by norm_num))]
  have hg : (stepState (exampleParams (1/1000) 30) (compute_jhjinv (zeroVis 2))
      (initState (exampleParams (1/1000) 30))
      (initState (exampleParams (1/1000) 30)).chi).gains = idGain 2 := by
    simp only [stepState, exampleParams]
    exact gainsOf_cisOne _
  rw [hg]
  rfl

theorem run_min2 :
    solverRun (exampleParams 2 30) = ⟨idGain 2, .deltaGConverged, 0⟩ := by
  refine .trans (show solverRun (exampleParams 2 30)
      = loopGo (exampleParams 2 30) (compute_jhjinv (zeroVis 2)) (31 + 1)
          (initState (exampleParams 2 30)) from rfl) ?_
  rw [loopGo_exit _ _ _ _ (show ¬((2:ℚ) < 1) by norm_num)]
  have hg : (initState (exampleParams 2 30)).gains = idGain 2 := by
    simp only [initState, exampleParams]
    exact gainsOf_cisOne _
  rw [hg]
  rfl

theorem loopGo_iters_succ {na : ℕ} (P : SolverParams na) (jhjinv : JhjArr na)
    (fuel : ℕ) (st : SolverState na) (h1 : st.delta_g > P.min_delta_g) :
    st.iters + 1 ≤ (loopGo P jhjinv (fuel + 1) st).iters := by
  simp only [loopGo]
  rw [if_pos h1]
  split
  · show st.iters + 1 ≤ st.iters + 1
    omega
  · split
    · split
      · show st.iters + 1 ≤ st.iters + 1
        omega
      · show st.iters + 1 ≤ st.iters + 1
        omega
      · refine le_trans ?_ (loopGo_iters_mono P jhjinv fuel _)
        exact Nat.le_refl _
    · refine le_trans ?_ (loopGo_iters_mono P jhjinv fuel _)
      exact Nat.le_refl _

/-- C1 (amended).  When `old_chi < chi` at a chi-squared check, the solver
does terminate at that check and return the current gains with no rollback,
but through the first branch `(old_chi - chi) < chi_tol` (for any positive
`chi_tol`, since `old_chi - chi < 0 < chi_tol`), so no diagnostic is
emitted; the "Bad solutions." branch (the `diverged` exit) is unreachable
in any run with `chi_tol > 0`. -/
theorem chi_increase_no_divergence :
    (∀ o c tol : ℚ, o < c → 0 < tol → chiCheck (.fin o) c tol = some false) ∧
    (∀ (na : ℕ) (P : SolverParams na), 0 < P.chi_tol →
      (solverRun P).path ≠ .diverged) := by
  constructor
  · intro o c tol h1 h2
    simp only [chiCheck]
    rw [if_pos (by linarith)]
  · intro na P htol
    exact loopGo_ne_diverged P _ htol _ _

/-- C1 counterexample to the claim as stated: at a chi-squared check with
`old_chi = 1 < 2 = chi` and the default `chi_tol = 1e-6`, the code returns
through the convergence branch (`some false`), not the diagnostic
divergence branch. -/
theorem chi_increase_claim_cex :
    (1:ℚ) < 2 ∧ chiCheck (.fin 1) 2 (1/1000000) = some false := by
  constructor
  · norm_num
  · simp only [chiCheck]
    rw [if_pos (by norm_num)]

/-- C1 witness for `chi_increase_no_divergence`. -/
theorem chi_increase_no_divergence_witness :
    chiCheck (.fin 2) 3 (1/2) = some false :=
  chi_increase_no_divergence.1 2 3 (1/2) (by norm_num) (by norm_num)

/-- C2.  Two runs on the same all-zero 2-antenna data, one exiting at the
iteration cap (`maxiter = 0`) and one through the `delta_g` convergence
test (`maxiter = 30`), return exactly the same value from
`full_pol_phase_only` (the bare gains array): the outcome is not
distinguishable from the returned value, only from the instrumented exit
tag (the source signals divergence only by printing "Bad solutions."). -/
theorem solver_outcomes_share_return :
    (solverRun (exampleParams (1/1000) 0)).path = .maxiterReached ∧
    (solverRun (exampleParams (1/1000) 30)).path = .deltaGConverged ∧
    full_pol_phase_only (exampleParams (1/1000) 0)
      = full_pol_phase_only (exampleParams (1/1000) 30) := by
  refine ⟨?_, ?_, ?_⟩
  · rw [run_maxiter0]
  · rw [run_deltag30]
  · show (solverRun (exampleParams (1/1000) 0)).gains
        = (solverRun (exampleParams (1/1000) 30)).gains
    rw [run_maxiter0, run_deltag30]

/-- C3.  The loop increments `iters` every pass and returns as soon as
`iters > maxiter`, before the chi-squared block and regardless of
`delta_g`; hence every run executes at most `maxiter + 1` iterations, and
with `maxiter = 0` (and any `min_delta_g < 1`, e.g. the default `1e-3`, so
that the sentinel first loop test passes) exactly one iteration runs. -/
theorem solver_iteration_cap :
    ∀ (na : ℕ) (P : SolverParams na),
      (solverRun P).iters ≤ P.maxiter + 1 ∧
      (P.maxiter = 0 → P.min_delta_g < 1 → (solverRun P).iters = 1) := by
  intro na P
  constructor
  · exact loopGo_iters_le P _ _ _ (Nat.zero_le _)
  · intro h0 h1
    have h := loopGo_maxiter P (compute_jhjinv P.model) (P.maxiter + 1)
        (initState P) h1 (show P.maxiter < 0 + 1 by omega)
    show (loopGo P (compute_jhjinv P.model) (P.maxiter + 1 + 1) (initState P)).iters = 1
    rw [h]
    rfl

/-- C3 witness: with `maxiter = 0` and `min_delta_g = 1e-3` the solver
performs exactly one iteration. -/
theorem solver_iteration_cap_witness :
    (solverRun (exampleParams (1/1000) 0)).iters = 1 :=
  (solver_iteration_cap 2 (exampleParams (1/1000) 0)).2 rfl
    (show ((1:ℚ)/1000) < 1 by norm_num)

/-- C5.  The gains are diagonal at initialization and re-diagonalized by
`gains[..., (0, 1), (1, 0)] = 0` after every phase update, so the gains
returned by `full_pol_phase_only` in every terminal state have all
off-diagonal entries exactly zero. -/
theorem solver_gains_diagonal :
    ∀ (na : ℕ) (P : SolverParams na) (p : Fin na) (i j : Fin 2), i ≠ j →
      (solverRun P).gains p i j = 0 := by
  intro na P p i j hij
  exact loopGo_gains_diag P _ _ (initState P)
    (fun p i j hij => gainsOf_offdiag _ _ _ hij) p i j hij

/-- C5 witness at a concrete run. -/
theorem solver_gains_diagonal_witness :
    (solverRun (exampleParams (1/1000) 30)).gains 0 0 1 = 0 :=
  solver_gains_diagonal 2 (exampleParams (1/1000) 30) 0 0 1 (by decide)

/-- C6.  The relaxation factor of the loop body is exactly `1/2` on every
even (0-indexed) iteration counter value and exactly `1` on every odd
one. -/
theorem relaxFact_even_odd :
    ∀ n : ℕ, relaxFact (2 * n) = 1 / 2 ∧ relaxFact (2 * n + 1) = 1 := by
  intro n
  constructor
  · simp only [relaxFact]
    rw [if_pos (by omega)]
  · simp only [relaxFact]
    rw [if_neg (by omega)]

/-- C9 (amended).  The first evaluation of `while delta_g > min_delta_g`
uses the hard-coded sentinel `delta_g = 1`, not a computed gain difference;
whenever `min_delta_g < 1` (in particular at the default `1e-3`) at least
one iteration therefore executes before any exit test can fire. -/
theorem solver_first_iteration_sentinel :
    ∀ (na : ℕ) (P : SolverParams na), P.min_delta_g < 1 →
      1 ≤ (solverRun P).iters := by
  intro na P h
  show 1 ≤ (loopGo P (compute_jhjinv P.model) (P.maxiter + 1 + 1) (initState P)).iters
  exact loopGo_iters_succ P (compute_jhjinv P.model) (P.maxiter + 1) (initState P) h

/-- C9 counterexample to the claim as stated: with `min_delta_g = 2` the
sentinel test `1 > 2` fails immediately and the solver returns the initial
gains after zero iterations — no iteration executes before the first exit
test. -/
theorem solver_zero_iterations_cex :
    (solverRun (exampleParams 2 30)).iters = 0 ∧
    (solverRun (exampleParams 2 30)).path = .deltaGConverged := by
  rw [run_min2]
  exact ⟨rfl, rfl⟩

/-- C9 witness for `solver_first_iteration_sentinel`. -/
theorem solver_first_iteration_sentinel_witness :
    1 ≤ (solverRun (exampleParams (1/2) 30)).iters :=
  solver_first_iteration_sentinel 2 (exampleParams (1/2) 30)
    (show ((1:ℚ)/2) < 1 by norm_num)

theorem jhjDot_zeroVis {na : ℕ} (p : Fin na) (k : Fin 4) :
    jhjDot (zeroVis na) p k = 0 := by
  simp [jhjDot, jhjAbsSum, zeroVis, CC.normSq]

theorem to_norm_col1 (k : Fin 4) : to_norm k 1 = 0 := by
  simp [to_norm]

theorem to_norm_col2 (k : Fin 4) : to_norm k 2 = 0 := by
  simp [to_norm]

theorem to_norm_nonneg (k j : Fin 4) : 0 ≤ to_norm k j := by
  simp only [to_norm]
  split_ifs <;> norm_num

theorem jhjAbsSum_nonneg {na : ℕ} (model : VisArr na) (p : Fin na) (k : Fin 4) :
    0 ≤ jhjAbsSum model p k := by
  refine Finset.sum_nonneg fun q _ => ?_
  simp only [CC.normSq]
  positivity

theorem jhjDot_nonneg {na : ℕ} (model : VisArr na) (p : Fin na) (j : Fin 4) :
    0 ≤ jhjDot model p j := by
  refine Finset.sum_nonneg fun k _ => ?_
  exact mul_nonneg (jhjAbsSum_nonneg model p k) (to_norm_nonneg k j)

/-- C4.  The element-wise inversion of `compute_jhjinv` never divides by
zero: an exactly-zero entry of the summed-and-normalized array stays zero,
every non-zero entry becomes its exact reciprocal, and on an all-zero model
array the whole normalization block is zero. -/
theorem compute_jhjinv_no_div_by_zero :
    (∀ (na : ℕ) (model : VisArr na) (p : Fin na) (i j : Fin 2),
        jhjDot model p (flatIx i j) = 0 → compute_jhjinv model p i j = 0) ∧
    (∀ (na : ℕ) (model : VisArr na) (p : Fin na) (i j : Fin 2),
        jhjDot model p (flatIx i j) ≠ 0 →
        compute_jhjinv model p i j * jhjDot model p (flatIx i j) = 1) ∧
    (∀ (na : ℕ) (p : Fin na) (i j : Fin 2), compute_jhjinv (zeroVis na) p i j = 0) := by
  refine ⟨?_, ?_, ?_⟩
  · intro na model p i j h
    simp only [compute_jhjinv]
    rw [h]
    simp
  · intro na model p i j h
    simp only [compute_jhjinv]
    rw [if_pos h]
    exact one_div_mul_cancel h
  · intro na p i j
    simp only [compute_jhjinv]
    rw [jhjDot_zeroVis]
    simp

/-- C4 witness: on an all-one model the `(0,0)` entry is a true reciprocal
(its pre-inversion value is non-zero), and the `(0,1)` entry has
pre-inversion value exactly zero and is returned as zero. -/
theorem compute_jhjinv_no_div_by_zero_witness :
    compute_jhjinv (oneVis 1) 0 0 0 * jhjDot (oneVis 1) 0 (flatIx 0 0) = 1 ∧
    compute_jhjinv (oneVis 1) 0 0 1 = 0 := by
  constructor
  · refine compute_jhjinv_no_div_by_zero.2.1 1 (oneVis 1) 0 0 0 ?_
    show jhjDot (oneVis 1) 0 0 ≠ 0
    norm_num [jhjDot, jhjAbsSum, oneVis, CC.normSq, Fin.sum_univ_four,
      show to_norm 0 0 = 2 from rfl, show to_norm 1 0 = 1 from rfl,
      show to_norm 2 0 = 1 from rfl, show to_norm 3 0 = 0 from rfl]
  · refine compute_jhjinv_no_div_by_zero.1 1 (oneVis 1) 0 0 1 ?_
    show jhjDot (oneVis 1) 0 1 = 0
    simp [jhjDot, to_norm_col1]

/-- C10.  Every per-antenna 2x2 block returned by `compute_jhjinv` is a
(real-valued) diagonal matrix with non-negative diagonal: the `(0,1)` and
`(1,0)` entries are exactly zero because columns 1 and 2 of the fixed
normalization matrix are zero, and the diagonal entries are reciprocals of
sums of squared magnitudes weighted by non-negative integers. -/
theorem compute_jhjinv_blocks_diag_nonneg :
    ∀ (na : ℕ) (model : VisArr na) (p : Fin na),
      compute_jhjinv model p 0 1 = 0 ∧ compute_jhjinv model p 1 0 = 0 ∧
      0 ≤ compute_jhjinv model p 0 0 ∧ 0 ≤ compute_jhjinv model p 1 1 := by
  intro na model p
  have hnn : ∀ (i j : Fin 2), 0 ≤ compute_jhjinv model p i j := by
    intro i j
    simp only [compute_jhjinv]
    split_ifs with h
    · exact one_div_nonneg.mpr (jhjDot_nonneg model p _)
    · exact jhjDot_nonneg model p _
  refine ⟨?_, ?_, hnn 0 0, hnn 1 1⟩
  · simp only [compute_jhjinv]
    rw [show flatIx 0 1 = 1 from rfl, show jhjDot model p 1 = 0 from by
      simp [jhjDot, to_norm_col1]]
    simp
  · simp only [compute_jhjinv]
    rw [show flatIx 1 0 = 2 from rfl, show jhjDot model p 2 = 0 from by
      simp [jhjDot, to_norm_col2]]
    simp

theorem rev2_zero : rev2 0 = 1 := rfl

theorem rev2_one : rev2 1 = 0 := rfl

theorem detOf_diag {na : ℕ} (g : GainArr na) (p : Fin na)
    (h01 : g p 0 1 = 0) (h10 : g p 1 0 = 0) :
    detOf g p = g p 0 0 * g p 1 1 := by
  simp [detOf, h01, h10]

theorem inv_gains_00 {na : ℕ} (g : GainArr na) (p : Fin na) :
    inv_gains g p 0 0 = g p 1 1 * CC.cinv (detOf g p) := by
  simp [inv_gains, invGainsRaw, signM, rev2_zero]

theorem inv_gains_11 {na : ℕ} (g : GainArr na) (p : Fin na) :
    inv_gains g p 1 1 = g p 0 0 * CC.cinv (detOf g p) := by
  simp [inv_gains, invGainsRaw, signM, rev2_one]

theorem inv_gains_01 {na : ℕ} (g : GainArr na) (p : Fin na)
    (h01 : g p 0 1 = 0) : inv_gains g p 0 1 = 0 := by
  simp [inv_gains, invGainsRaw, signM, rev2_zero, rev2_one, h01]

theorem inv_gains_10 {na : ℕ} (g : GainArr na) (p : Fin na)
    (h10 : g p 1 0 = 0) : inv_gains g p 1 0 = 0 := by
  simp [inv_gains, invGainsRaw, signM, rev2_zero, rev2_one, h10]

/-- C7.  For diagonal gains with non-zero determinants, applying the gains
forward (`W = G·V·G^H` per antenna pair, exactly the `gmgh` reconstruction
of `compute_residual`) and then correcting with `apply_gains(W, G)` returns
`V` exactly (exact arithmetic). -/
theorem apply_gains_round_trip :
    ∀ (na : ℕ) (V : VisArr na) (g : GainArr na),
      (∀ p, g p 0 1 = 0 ∧ g p 1 0 = 0) →
      (∀ p, detOf g p ≠ 0) →
      ∀ (l m : Fin na) (i k : Fin 2),
        apply_gains (gmghArr g V) g l m i k = V l m i k := by
  intro na V g hd hdet l m i k
  have h01l := (hd l).1
  have h10l := (hd l).2
  have h01m := (hd m).1
  have h10m := (hd m).2
  have hdl2 : g l 0 0 * g l 1 1 * CC.cinv (detOf g l) = 1 := by
    rw [← detOf_diag g l h01l h10l]
    exact CC.mul_cinv (hdet l)
  have hdm2 : g m 0 0 * g m 1 1 * CC.cinv (detOf g m) = 1 := by
    rw [← detOf_diag g m h01m h10m]
    exact CC.mul_cinv (hdet m)
  have hcm2 : CC.conj (g m 0 0) * CC.conj (g m 1 1) * CC.conj (CC.cinv (detOf g m)) = 1 := by
    have h := congrArg CC.conj hdm2
    rw [CC.conj_mul, CC.conj_mul, CC.conj_one] at h
    exact h
  fin_cases i <;> fin_cases k <;>
    simp only [Fin.mk_zero, Fin.mk_one, apply_gains, gmghArr, gmArr, Fin.sum_univ_two,
      inv_gains_00, inv_gains_11, inv_gains_01 g l h01l, inv_gains_10 g l h10l,
      inv_gains_01 g m h01m, inv_gains_10 g m h10m,
      h01l, h10l, h01m, h10m, CC.conj_zero, CC.conj_mul,
      zero_mul, mul_zero, add_zero, zero_add, Fin.isValue]
  · linear_combination (CC.conj (g m 0 0) * CC.conj (g m 1 1)
        * CC.conj (CC.cinv (detOf g m)) * V l m 0 0) * hdl2 + V l m 0 0 * hcm2
  · linear_combination (CC.conj (g m 0 0) * CC.conj (g m 1 1)
        * CC.conj (CC.cinv (detOf g m)) * V l m 0 1) * hdl2 + V l m 0 1 * hcm2
  · linear_combination (CC.conj (g m 0 0) * CC.conj (g m 1 1)
        * CC.conj (CC.cinv (detOf g m)) * V l m 1 0) * hdl2 + V l m 1 0 * hcm2
  · linear_combination (CC.conj (g m 0 0) * CC.conj (g m 1 1)
        * CC.conj (CC.cinv (detOf g m)) * V l m 1 1) * hdl2 + V l m 1 1 * hcm2

/-- C7 witness at a concrete 1-antenna system with unit gains. -/
theorem apply_gains_round_trip_witness :
    apply_gains (gmghArr (idGain 1) (sampleVis 1)) (idGain 1) 0 0 0 1
      = sampleVis 1 0 0 0 1 :=
  apply_gains_round_trip 1 (sampleVis 1) (idGain 1)
    (fun _ => ⟨rfl, rfl⟩)
    (fun p => by
      have hval : detOf (idGain 1) p = 1 := by simp [detOf, idGain]
      rw [hval]
      exact CC.one_ne_zero)
    0 0 0 1
